import Mathlib

/-!
Shallow embedding of `src/twimg.py`: the tweet record model, the serialized
log codec (`load_existing_tweets` and the writer loop of `__main__`), the
session scraper's per-article dedup loop, the merge loop of `__main__`, and
the publisher guard.  Python strings are modelled as `List Char`; Python's
`str.split`, `str.strip`, `re.search` on the literal patterns used by the
source are modelled by executable functions below.
-/

set_option maxRecDepth 20000

namespace Twimg

/-- Python strings, modelled as lists of characters. -/
abbrev Str := List Char

/-- Characters of a Lean string literal. -/
def chars (s : String) : Str := s.data

/-- A tweet record: the three string fields stored in the dicts of
`twimg.py` (`user_info`, `timestamp`, `text`). -/
structure Tweet where
  user_info : Str
  timestamp : Str
  text : Str
deriving DecidableEq

/-- The dedup signature `f"{user_info}_{timestamp}_{text}"` used at
`twimg.py` lines 122, 165 and 178. -/
def sig (t : Tweet) : Str := t.user_info ++ '_' :: t.timestamp ++ '_' :: t.text

/-- The separator written between records: `"-" * 20 + "\n"`
(`twimg.py` lines 26 and 197). -/
def SEP : Str := List.replicate 20 '-' ++ ['\n']

/-- Python's whitespace predicate for `str.strip` (true exactly on the
code points for which `str.isspace` holds). -/
def isPySpace (c : Char) : Bool :=
  let n := c.toNat
  n == 32 || (9 ≤ n && n ≤ 13) || (28 ≤ n && n ≤ 31) || n == 133 || n == 160 ||
    n == 5760 || (8192 ≤ n && n ≤ 8202) || n == 8232 || n == 8233 || n == 8239 ||
    n == 8287 || n == 12288

/-- Python `s.strip()`: drop whitespace from both ends (right end first;
the order is immaterial). -/
def pyStrip (s : Str) : Str :=
  ((s.reverse.dropWhile isPySpace).reverse).dropWhile isPySpace

/-- The portion of a line matched by `(.*)` in a Python regex: everything
up to (excluding) the next newline. -/
def takeLine (s : Str) : Str := s.takeWhile (fun c => c != '\n')

/-- `re.search` for a literal pattern: `findSub pat s` returns the suffix of
`s` that follows the leftmost occurrence of `pat`, or `none` when `pat` does
not occur in `s`.  (The capture groups of the three regexes in
`load_existing_tweets` are recovered from this suffix.) -/
def findSub (pat : Str) : Str → Option Str
  | [] => if pat.isPrefixOf ([] : Str) then some [] else none
  | c :: rest =>
    if pat.isPrefixOf (c :: rest) then some (List.drop pat.length (c :: rest))
    else findSub pat rest

/-- Worker for Python `content.split("-" * 20 + "\n")`: scan left to right,
splitting at each leftmost non-overlapping occurrence of `SEP`.  `racc` is
the current chunk, reversed; the `Nat` argument is fuel (structural
recursion), always called with more fuel than the length of the text. -/
def splitGoF : Nat → Str → Str → List Str
  | 0, racc, _ => [racc.reverse]
  | _ + 1, racc, [] => [racc.reverse]
  | n + 1, racc, c :: rest =>
    if SEP.isPrefixOf (c :: rest) then
      racc.reverse :: splitGoF n [] (List.drop 20 rest)
    else
      splitGoF n (c :: racc) rest

/-- Python `content.split("-" * 20 + "\n")` (`twimg.py` line 26). -/
def pySplit (s : Str) : List Str := splitGoF (s.length + 1) [] s

/-- One chunk of `load_existing_tweets` (`twimg.py` lines 32-42): the three
`re.search` calls for `"User: (.*)"`, `"Time: (.*)"` and `"Text: ([\s\S]*)"`;
if all three match, the stripped captures form a record, otherwise the chunk
yields nothing. -/
def parseEntry (entry : Str) : Option Tweet :=
  match findSub (chars "User: ") entry, findSub (chars "Time: ") entry,
      findSub (chars "Text: ") entry with
  | some du, some dt, some dx =>
    some ⟨pyStrip (takeLine du), pyStrip (takeLine dt), pyStrip dx⟩
  | _, _, _ => none

/-- The decoder of `load_existing_tweets` (`twimg.py` lines 23-42): split on
the separator, skip whitespace-only chunks, parse the rest, dropping chunks
where any of the three labelled fields is missing. -/
def decodeL (content : Str) : List Tweet :=
  ((pySplit content).filter (fun e => !(pyStrip e).isEmpty)).filterMap parseEntry

/-- Outcome of the `requests.get` call in `load_existing_tweets`: either an
HTTP response (status code and body) or a raised exception. -/
inductive FetchOutcome where
  | response (status : Nat) (body : Str)
  | networkError
deriving DecidableEq

/-- `load_existing_tweets` (`twimg.py` lines 11-47): empty URL, an exception,
or a status other than 200 all yield the empty list; a 200 response is
decoded. -/
def load_existing_tweets (fileUrl : Str) (outcome : FetchOutcome) : List Tweet :=
  if fileUrl = [] then []
  else
    match outcome with
    | FetchOutcome.networkError => []
    | FetchOutcome.response status body =>
      if status ≠ 200 then [] else decodeL body

/-- `user_info.replace("\n", " ")` (`twimg.py` line 127). -/
def normalizeU (u : Str) : Str := u.map (fun c => if c = '\n' then ' ' else c)

/-- The dict appended to `tweets_data` at `twimg.py` lines 126-130: the
`user_info` field is normalized, the other two are stored raw. -/
def storeTweet (a : Tweet) : Tweet :=
  { user_info := normalizeU a.user_info, timestamp := a.timestamp, text := a.text }

/-- One iteration of the article loop of `scrape_twitter` (`twimg.py` lines
111-132): the dedup key is the signature of the RAW extracted fields
(computed at line 122, before the `replace` at line 127); a new article is
appended to the output with its `user_info` normalized. -/
def scrapeStep (st : List Tweet × List Str) (a : Tweet) : List Tweet × List Str :=
  if sig a ∈ st.2 then st else (st.1 ++ [storeTweet a], sig a :: st.2)

/-- The session scraper's pure core: the stream of raw extracted articles
(concatenated over all scroll rounds) folded through the dedup-and-store
loop, starting from an empty `tweets_data` and an empty `seen_tweet_sigs`. -/
def scrapeSession (articles : List Tweet) : List Tweet :=
  (articles.foldl scrapeStep ([], [])).1

/-- One iteration of the merge loop (`twimg.py` lines 177-182): state is
`(merged_tweets, seen_sigs, added_count)`; a record whose signature is
unseen is inserted at the front. -/
def mergeStep : List Tweet × List Str × Nat → Tweet → List Tweet × List Str × Nat
  | (merged, seen, count), t =>
    if sig t ∈ seen then (merged, seen, count)
    else (t :: merged, sig t :: seen, count + 1)

/-- The merge engine (`twimg.py` lines 163-182): seed the seen set with the
signatures of `existing`, start from a copy of `existing`, fold the new
records through `mergeStep`; returns the merged list and `added_count`. -/
def mergeTweets (existing incoming : List Tweet) : List Tweet × Nat :=
  let r := incoming.foldl mergeStep (existing, existing.map sig, 0)
  (r.1, r.2.2)

/-- The three labelled lines written for one record (`twimg.py` lines
194-196): `User: …`, `Time: …`, `Text: …`, each newline-terminated. -/
def entryChars (t : Tweet) : Str :=
  chars "User: " ++ t.user_info ++ ['\n'] ++ chars "Time: " ++ t.timestamp ++
    ['\n'] ++ chars "Text: " ++ t.text ++ ['\n']

/-- Everything the writer loop emits for one record: its three labelled
lines followed by the separator line (`twimg.py` lines 194-197). -/
def recordBlock (t : Tweet) : Str := entryChars t ++ SEP

/-- The encoder: the writer loop of `twimg.py` lines 193-197, sequential
`f.write` calls modelled as appending to the file contents. -/
def encodeL (S : List Tweet) : Str := S.foldl (fun acc t => acc ++ recordBlock t) []

/-- The publisher (`twimg.py` lines 187-200): `if merged_tweets:` guards the
whole write; the file state (`none` = absent) is overwritten with the
encoding only when the merged list is non-empty. -/
def publishLog (merged : List Tweet) (oldFile : Option Str) : Option Str :=
  if merged = [] then oldFile else some (encodeL merged)

/-- Substring test (Python `in` / whether `re.search` of a literal succeeds):
does `pat` occur as a contiguous run inside the second list? -/
def containsSub (pat : Str) : Str → Bool
  | [] => pat.isEmpty
  | c :: rest => pat.isPrefixOf (c :: rest) || containsSub pat rest

/-- The lines of a string (split on newline), used to state the
"standalone separator line" condition of the round-trip law. -/
def linesOf : Str → List Str
  | [] => [[]]
  | c :: rest =>
    if c = '\n' then [] :: linesOf rest
    else
      match linesOf rest with
      | [] => [[c]]
      | l :: ls => (c :: l) :: ls

/-- A field value does not contain the 20-dash separator line as a
standalone line (the precondition the spec states for the round-trip law). -/
def standaloneSepFree (s : Str) : Prop :=
  List.replicate 20 '-' ∉ linesOf s

/-- Basic well-formedness of a record, independent of the separator:
`user_info` and `timestamp` are single-line and strip-invariant, `text` is
strip-invariant, the literal `"Time: "` does not occur inside the User line,
and the literal `"Text: "` does not occur inside the User or Time lines. -/
def basicWF (r : Tweet) : Prop :=
  pyStrip r.user_info = r.user_info ∧ '\n' ∉ r.user_info ∧
  pyStrip r.timestamp = r.timestamp ∧ '\n' ∉ r.timestamp ∧
  pyStrip r.text = r.text ∧
  containsSub (chars "Time: ") (chars "User: " ++ r.user_info ++ ['\n']) = false ∧
  containsSub (chars "Text: ")
    (chars "User: " ++ r.user_info ++ ['\n'] ++ chars "Time: " ++ r.timestamp ++ ['\n'])
    = false

/-- Full well-formedness: basic well-formedness plus the condition the code
actually needs in place of the spec's "standalone line" clause: the
separator string must not occur as a substring of the encoded entry. -/
def WellFormed (r : Tweet) : Prop :=
  basicWF r ∧ containsSub SEP (entryChars r) = false

/-- The merge result as the spec's words describe it (claim C1): the
baseline records in order, preceded by the reversal of those incoming
records whose signature is absent from the baseline. -/
def specMergeResult (baseline incoming : List Tweet) : List Tweet :=
  (incoming.filter (fun t => decide (sig t ∉ baseline.map sig))).reverse ++ baseline

/-- First occurrences of fresh signatures: the records of the input whose
signature is neither in `seen` nor equal to the signature of an earlier kept
record.  This is the characterization of which records the dedup loops
(scraper and merge) retain. -/
def firstOccNew (seen : List Str) : List Tweet → List Tweet
  | [] => []
  | t :: rest =>
    if sig t ∈ seen then firstOccNew seen rest
    else t :: firstOccNew (sig t :: seen) rest

/-! ### Concrete fixtures used by witnesses and counterexamples -/

/-- The baseline record of the spec's concrete scenario. -/
def exA : Tweet := ⟨chars "Alice", chars "2024-01-01T00:00:00Z", chars "hi"⟩

/-- The incoming record of the spec's concrete scenario. -/
def exB : Tweet := ⟨chars "Bob", chars "2024-01-02T00:00:00Z", chars "yo"⟩

/-- A generic baseline record. -/
def exX : Tweet := ⟨chars "X", chars "tx", chars "xx"⟩

/-- Another generic baseline record. -/
def exY : Tweet := ⟨chars "Y", chars "ty", chars "xy"⟩

/-- A raw article whose `user_info` contains a newline (as the DOM text of a
user block typically does). -/
def exRawNl : Tweet := ⟨chars "A" ++ '\n' :: chars "B", chars "t", chars "x"⟩

/-- A raw article whose `user_info` is the space-normalized form of
`exRawNl`'s. -/
def exRawSp : Tweet := ⟨chars "A B", chars "t", chars "x"⟩

/-- A record whose `text` contains the separator string as a substring of a
longer line, but not as a standalone line. -/
def exSepText : Tweet :=
  ⟨chars "a", chars "b", chars "c--------------------" ++ '\n' :: chars "d"⟩

/-- A three-entry log text whose second entry lacks its `Time:` line. -/
def logC7 : Str :=
  chars "User: a\nTime: t1\nText: x1\n" ++ SEP ++
    chars "User: b\nText: x2\n" ++ SEP ++
    chars "User: c\nTime: t3\nText: x3\n" ++ SEP

instance (s : Str) : Decidable (standaloneSepFree s) :=
  inferInstanceAs (Decidable (List.replicate 20 '-' ∉ linesOf s))

instance (r : Tweet) : Decidable (basicWF r) := by
  unfold basicWF; infer_instance

instance (r : Tweet) : Decidable (WellFormed r) := by
  unfold WellFormed; infer_instance

/-! ### Helper lemmas about prefixes, substrings and stripping -/

lemma prefixApp (p X : Str) : p <+: p ++ X := ⟨X, rfl⟩

lemma dropAppLeft : ∀ (a b : Str), (a ++ b).drop a.length = b := by
  intro a b
  induction a with
  | nil => rfl
  | cons c a ih =>
    simp only [List.cons_append, List.length_cons, List.drop_succ_cons]
    exact ih

lemma isPrefixOfIff {p l : Str} : p.isPrefixOf l = true ↔ p <+: l := by
  induction p generalizing l with
  | nil => simp [List.isPrefixOf]
  | cons c p ih =>
    cases l with
    | nil => simp [List.isPrefixOf]
    | cons d l =>
      simp only [List.isPrefixOf, Bool.and_eq_true, beq_iff_eq, ih,
        List.cons_prefix_cons]

lemma memOfGetLast : ∀ {l : Str} {z : Char}, l.getLast? = some z → z ∈ l := by
  intro l z h
  rcases List.eq_nil_or_concat l with rfl | ⟨Y, b, rfl⟩
  · simp at h
  · rw [List.concat_eq_append, List.getLast?_concat] at h
    obtain rfl : b = z := by injection h
    simp [List.concat_eq_append]

lemma getLastOfSuffix {e l : Str} (h : e <:+ l) (hne : e ≠ []) :
    e.getLast? = l.getLast? := by
  obtain ⟨s, rfl⟩ := h
  exact (List.getLast?_append_of_ne_nil s hne).symm

lemma prefTrans2 {p q l : Str} (h1 : p <+: l) (h2 : q <+: l)
    (hle : p.length ≤ q.length) : p <+: q := by
  have e1 : p = l.take p.length := List.prefix_iff_eq_take.mp h1
  have e2 : q = l.take q.length := List.prefix_iff_eq_take.mp h2
  have : q.take p.length = p := by
    rw [e2, List.take_take, Nat.min_eq_left hle, ← e1]
  exact this ▸ List.take_prefix p.length q

lemma noPrefApp {pat e : Str} (X : Str) {z : Char} (hz : e.getLast? = some z)
    (hzm : z ∉ pat) (hp : ¬ pat <+: e) : ¬ pat <+: (e ++ X) := by
  intro h
  rcases le_or_lt pat.length e.length with hle | hlt
  · exact hp (prefTrans2 h (prefixApp e X) hle)
  · have he : e <+: pat := prefTrans2 (prefixApp e X) h (Nat.le_of_lt hlt)
    exact hzm (he.subset (memOfGetLast hz))

lemma noPrefAppSep {e : Str} (X : Str) (hz : e.getLast? = some '\n')
    (hp : ¬ SEP <+: e) : ¬ SEP <+: (e ++ X) := by
  intro h
  rcases le_or_lt SEP.length e.length with hle | hlt
  · exact hp (prefTrans2 h (prefixApp e X) hle)
  · have he : e <+: SEP := prefTrans2 (prefixApp e X) h (Nat.le_of_lt hlt)
    have hlen : e.length ≤ 20 := by
      have := hlt
      simp only [SEP, List.length_append, List.length_replicate,
        List.length_singleton] at this
      omega
    have he' : e = List.replicate (min e.length 20) '-' := by
      have := List.prefix_iff_eq_take.mp he
      rwa [SEP, List.take_append_eq_append_take, List.length_replicate,
        Nat.sub_eq_zero_of_le hlen, List.take_zero, List.append_nil,
        List.take_replicate] at this
    have : '\n' ∈ e := memOfGetLast hz
    rw [he'] at this
    exact absurd (List.eq_of_mem_replicate this) (by decide)

lemma containsSubIff {p : Str} : ∀ {l : Str}, containsSub p l = true ↔ p <:+: l := by
  intro l
  induction l with
  | nil =>
    simp only [containsSub, List.isEmpty_iff, List.infix_nil]
  | cons c l ih =>
    simp only [containsSub, Bool.or_eq_true, isPrefixOfIff, ih,
      List.infix_cons_iff]

lemma notInfixOfContainsFalse {p l : Str} (h : containsSub p l = false) :
    ¬ p <:+: l := by
  intro hc
  rw [← containsSubIff] at hc
  rw [h] at hc
  exact Bool.false_ne_true hc

/-! ### Helper lemmas about `findSub`, `takeLine` and `pyStrip` -/

lemma findSubSelf {pat : Str} (rest : Str) (hne : pat ≠ []) :
    findSub pat (pat ++ rest) = some rest := by
  cases pat with
  | nil => exact absurd rfl hne
  | cons c p =>
    show findSub (c :: p) (c :: (p ++ rest)) = some rest
    rw [findSub]
    have hcond : (c :: p).isPrefixOf (c :: (p ++ rest)) = true :=
      isPrefixOfIff.mpr ⟨rest, rfl⟩
    simp only [hcond, if_true, List.length_cons, List.drop_succ_cons, dropAppLeft]

lemma findSubAppend {pat : Str} (hne : pat ≠ []) :
    ∀ (pre post : Str),
      (∀ e, e <:+ pre → e ≠ [] → ¬ pat <+: (e ++ (pat ++ post))) →
      findSub pat (pre ++ (pat ++ post)) = some post := by
  intro pre
  induction pre with
  | nil => intro post _; simpa using findSubSelf post hne
  | cons c pre ih =>
    intro post hk
    show findSub pat (c :: (pre ++ (pat ++ post))) = some post
    rw [findSub]
    have hnp : ¬ pat <+: ((c :: pre) ++ (pat ++ post)) :=
      hk (c :: pre) (List.suffix_rfl) (by simp)
    have : pat.isPrefixOf (c :: (pre ++ (pat ++ post))) = false := by
      rw [Bool.eq_false_iff]
      intro hx
      exact hnp (by simpa using isPrefixOfIff.mp hx)
    rw [this]
    simp only [Bool.false_eq_true, if_false]
    exact ih post (fun e he hene => hk e (he.trans (List.suffix_cons c pre)) hene)

lemma takeLineApp {u : Str} (w : Str) (hu : '\n' ∉ u) :
    takeLine (u ++ '\n' :: w) = u := by
  induction u with
  | nil => simp [takeLine, List.takeWhile_cons]
  | cons c u ih =>
    have hc : c ≠ '\n' := fun h => hu (by simp [h])
    have hrest : '\n' ∉ u := fun h => hu (by simp [h])
    have hcb : (c != '\n') = true := by simpa using hc
    simp only [List.cons_append, takeLine, List.takeWhile_cons, hcb, if_true]
    exact congrArg (fun l => c :: l) (ih hrest)

lemma nlPySpace : isPySpace '\n' = true := by decide

lemma pyStripAppNl (x : Str) : pyStrip (x ++ ['\n']) = pyStrip x := by
  simp only [pyStrip, List.reverse_append, List.reverse_cons, List.reverse_nil,
    List.nil_append, List.singleton_append, List.dropWhile_cons, nlPySpace, if_true]

lemma pyStripNeNil {l : Str} {c : Char} (hc : c ∈ l) (hs : isPySpace c = false) :
    pyStrip l ≠ [] := by
  intro h
  have hmem : ∀ {m : Str}, c ∈ m → c ∈ m.dropWhile isPySpace := by
    intro m hm
    have hsplit : m.takeWhile isPySpace ++ m.dropWhile isPySpace = m :=
      List.takeWhile_append_dropWhile isPySpace m
    rw [← hsplit] at hm
    rcases List.mem_append.mp hm with h1 | h2
    · exact absurd (List.mem_takeWhile_imp h1) (by simp [hs])
    · exact h2
  have h1 : c ∈ (l.reverse.dropWhile isPySpace).reverse.dropWhile isPySpace :=
    hmem (List.mem_reverse.mpr (hmem (List.mem_reverse.mpr hc)))
  rw [show (l.reverse.dropWhile isPySpace).reverse.dropWhile isPySpace = pyStrip l from rfl] at h1
  rw [h] at h1
  exact List.not_mem_nil c h1

/-! ### Parsing a well-formed encoded entry -/

lemma entryCharsLast (r : Tweet) : (entryChars r).getLast? = some '\n' :=
  List.getLast?_concat _

lemma entryCharsNeNil (r : Tweet) : entryChars r ≠ [] := by
  intro h
  have := congrArg List.length h
  simp [entryChars, chars] at this

lemma suffixKill {pat pre : Str} (post : Str) (hnl : '\n' ∉ pat)
    (hlast : pre.getLast? = some '\n') (hinf : containsSub pat pre = false) :
    ∀ e, e <:+ pre → e ≠ [] → ¬ pat <+: (e ++ (pat ++ post)) := by
  intro e he hene
  have hez : e.getLast? = some '\n' := (getLastOfSuffix he hene).trans hlast
  have hnp : ¬ pat <+: e := fun hp =>
    notInfixOfContainsFalse hinf (hp.isInfix.trans he.isInfix)
  exact noPrefApp (pat ++ post) hez hnl hnp

lemma parseEntryWF {r : Tweet} (h : WellFormed r) : parseEntry (entryChars r) = some r := by
  obtain ⟨⟨hu1, hu2, ht1, ht2, hx1, hTime, hText⟩, _⟩ := h
  have hUserFind :
      findSub (chars "User: ") (entryChars r) = some
        (r.user_info ++ ['\n'] ++ chars "Time: " ++ r.timestamp ++ ['\n'] ++
          chars "Text: " ++ r.text ++ ['\n']) := by
    rw [show entryChars r = chars "User: " ++
        (r.user_info ++ ['\n'] ++ chars "Time: " ++ r.timestamp ++ ['\n'] ++
          chars "Text: " ++ r.text ++ ['\n']) from by
      simp [entryChars, List.append_assoc]]
    exact findSubSelf _ (by decide)
  have hpreU : (chars "User: " ++ r.user_info ++ ['\n']).getLast? = some '\n' :=
    List.getLast?_concat _
  have hTimeFind :
      findSub (chars "Time: ") (entryChars r) = some
        (r.timestamp ++ ['\n'] ++ chars "Text: " ++ r.text ++ ['\n']) := by
    rw [show entryChars r = (chars "User: " ++ r.user_info ++ ['\n']) ++
        (chars "Time: " ++
          (r.timestamp ++ ['\n'] ++ chars "Text: " ++ r.text ++ ['\n'])) from by
      simp [entryChars, List.append_assoc]]
    exact findSubAppend (by decide) _ _
      (suffixKill _ (by decide) hpreU hTime)
  have hpreT : (chars "User: " ++ r.user_info ++ ['\n'] ++ chars "Time: " ++
      r.timestamp ++ ['\n']).getLast? = some '\n' := List.getLast?_concat _
  have hTextFind :
      findSub (chars "Text: ") (entryChars r) = some (r.text ++ ['\n']) := by
    rw [show entryChars r = (chars "User: " ++ r.user_info ++ ['\n'] ++
        chars "Time: " ++ r.timestamp ++ ['\n']) ++
        (chars "Text: " ++ (r.text ++ ['\n'])) from by
      simp [entryChars, List.append_assoc]]
    exact findSubAppend (by decide) _ _
      (suffixKill _ (by decide) hpreT hText)
  rw [parseEntry, hUserFind, hTimeFind, hTextFind]
  have hu : pyStrip (takeLine (r.user_info ++ ['\n'] ++ chars "Time: " ++
      r.timestamp ++ ['\n'] ++ chars "Text: " ++ r.text ++ ['\n'])) = r.user_info := by
    rw [show r.user_info ++ ['\n'] ++ chars "Time: " ++ r.timestamp ++ ['\n'] ++
        chars "Text: " ++ r.text ++ ['\n'] = r.user_info ++ '\n' ::
        (chars "Time: " ++ r.timestamp ++ ['\n'] ++ chars "Text: " ++ r.text ++ ['\n'])
      from by simp [List.append_assoc]]
    rw [takeLineApp _ hu2, hu1]
  have ht : pyStrip (takeLine (r.timestamp ++ ['\n'] ++ chars "Text: " ++
      r.text ++ ['\n'])) = r.timestamp := by
    rw [show r.timestamp ++ ['\n'] ++ chars "Text: " ++ r.text ++ ['\n'] =
        r.timestamp ++ '\n' :: (chars "Text: " ++ r.text ++ ['\n'])
      from by simp [List.append_assoc]]
    rw [takeLineApp _ ht2, ht1]
  have hx : pyStrip (r.text ++ ['\n']) = r.text := by rw [pyStripAppNl, hx1]
  exact congrArg some (by rw [hu, ht, hx])

lemma entryStripNeNil (r : Tweet) : pyStrip (entryChars r) ≠ [] := by
  have hU : 'U' ∈ entryChars r := by
    have : 'U' ∈ chars "User: " := by decide
    simp only [entryChars]
    simp only [List.append_assoc, List.mem_append]
    exact Or.inl this
  exact pyStripNeNil hU (by decide)

/-! ### The split-on-separator function -/

lemma splitGoFCongr : ∀ (n m : Nat) (acc l : Str), l.length < n → l.length < m →
    splitGoF n acc l = splitGoF m acc l := by
  intro n
  induction n with
  | zero => intro m acc l h _; omega
  | succ n ih =>
    intro m acc l h1 h2
    cases m with
    | zero => omega
    | succ m =>
      cases l with
      | nil => rfl
      | cons c rest =>
        rw [splitGoF, splitGoF]
        by_cases hc : SEP.isPrefixOf (c :: rest) = true
        · rw [hc]
          simp only [if_true]
          have hlen : (List.drop 20 rest).length < n := by
            have := List.length_drop 20 rest
            simp only [List.length_cons] at h1
            omega
          have hlen' : (List.drop 20 rest).length < m := by
            have := List.length_drop 20 rest
            simp only [List.length_cons] at h2
            omega
          rw [ih m [] (List.drop 20 rest) hlen hlen']
        · rw [Bool.eq_false_iff.mpr hc]
          simp only [Bool.false_eq_true, if_false]
          exact ih m (c :: acc) rest (by simp at h1 ⊢; omega) (by simp at h2 ⊢; omega)

lemma sepIsPrefixOfSelfApp (t : Str) : SEP.isPrefixOf (SEP ++ t) = true :=
  isPrefixOfIff.mpr (prefixApp SEP t)

lemma splitGoFSepApp : ∀ (e : Str) (acc t : Str) (n : Nat),
    (e ++ (SEP ++ t)).length < n →
    (∀ e', e' <:+ e → e' ≠ [] → ¬ SEP <+: (e' ++ (SEP ++ t))) →
    splitGoF n acc (e ++ (SEP ++ t)) =
      (acc.reverse ++ e) :: splitGoF (t.length + 1) [] t := by
  intro e
  induction e with
  | nil =>
    intro acc t n hn _
    simp only [List.nil_append, List.append_nil]
    cases n with
    | zero => simp at hn
    | succ n =>
      rw [show SEP ++ t = '-' :: (List.replicate 19 '-' ++ ['\n'] ++ t) from by
        simp [SEP, List.append_assoc, List.replicate_succ]]
      rw [splitGoF]
      rw [show ('-' :: (List.replicate 19 '-' ++ ['\n'] ++ t)) = SEP ++ t from by
        simp [SEP, List.append_assoc, List.replicate_succ]]
      rw [sepIsPrefixOfSelfApp]
      simp only [if_true]
      have hdrop : List.drop 20 (List.replicate 19 '-' ++ ['\n'] ++ t) = t := by
        rw [show List.replicate 19 '-' ++ ['\n'] ++ t =
            (List.replicate 19 '-' ++ ['\n']) ++ t from by simp [List.append_assoc]]
        rw [show 20 = (List.replicate 19 '-' ++ ['\n']).length from by simp]
        exact dropAppLeft _ t
      rw [hdrop]
      have hlt : t.length < n := by
        simp only [SEP, List.length_append, List.length_replicate,
          List.length_cons] at hn
        simp at hn
        omega
      rw [splitGoFCongr n (t.length + 1) [] t hlt (Nat.lt_succ_self _)]
  | cons c e ih =>
    intro acc t n hn hk
    cases n with
    | zero => simp at hn
    | succ n =>
      rw [List.cons_append, splitGoF]
      have hnp : ¬ SEP <+: ((c :: e) ++ (SEP ++ t)) :=
        hk (c :: e) List.suffix_rfl (by simp)
      have hcond : SEP.isPrefixOf (c :: (e ++ (SEP ++ t))) = false := by
        rw [Bool.eq_false_iff]
        intro hx
        exact hnp (by simpa using isPrefixOfIff.mp hx)
      rw [hcond]
      simp only [Bool.false_eq_true, if_false]
      rw [ih (c :: acc) t n (by simpa using Nat.lt_of_succ_lt_succ (by simpa using hn))
        (fun e' he' hene => hk e' (he'.trans (List.suffix_cons c e)) hene)]
      simp [List.append_assoc]

/-- Splitting the encoding: given that no entry contains the separator as a
substring (and every entry ends with a newline), Python's split recovers
exactly the entries, plus a final empty chunk. -/
lemma pySplitEncode : ∀ (S : List Tweet),
    (∀ r ∈ S, containsSub SEP (entryChars r) = false) →
    pySplit ((S.map recordBlock).flatten) = S.map entryChars ++ [[]] := by
  intro S
  induction S with
  | nil => intro _; rfl
  | cons r S ih =>
    intro h
    have hr := h r (by simp)
    have hS : ∀ x ∈ S, containsSub SEP (entryChars x) = false :=
      fun x hx => h x (by simp [hx])
    simp only [List.map_cons, List.flatten_cons]
    rw [show recordBlock r ++ (S.map recordBlock).flatten =
        entryChars r ++ (SEP ++ (S.map recordBlock).flatten) from by
      simp [recordBlock, List.append_assoc]]
    rw [pySplit, splitGoFSepApp (entryChars r) [] ((S.map recordBlock).flatten) _
      (Nat.lt_succ_self _)]
    · rw [show splitGoF ((S.map recordBlock).flatten.length + 1) []
          ((S.map recordBlock).flatten) = pySplit ((S.map recordBlock).flatten)
        from rfl]
      rw [ih hS]
      simp
    · intro e' he' hene
      have hez : e'.getLast? = some '\n' :=
        (getLastOfSuffix he' hene).trans (entryCharsLast r)
      have hnp : ¬ SEP <+: e' := fun hp =>
        notInfixOfContainsFalse hr (hp.isInfix.trans he'.isInfix)
      exact noPrefAppSep _ hez hnp

/-- The imperative writer loop equals the concatenation of the per-record
blocks. -/
lemma encodeEqFlatten : ∀ (S : List Tweet), encodeL S = (S.map recordBlock).flatten := by
  have aux : ∀ (S : List Tweet) (a : Str),
      S.foldl (fun acc t => acc ++ recordBlock t) a = a ++ (S.map recordBlock).flatten := by
    intro S
    induction S with
    | nil => intro a; simp
    | cons r S ih => intro a; simp [ih, List.append_assoc]
  intro S
  rw [encodeL, aux S []]
  rfl

/-- Round trip on well-formed records: decoding the encoding is the
identity. -/
lemma decodeEncodeOfWF : ∀ (S : List Tweet), (∀ r ∈ S, WellFormed r) →
    decodeL (encodeL S) = S := by
  intro S h
  rw [decodeL, encodeEqFlatten,
    pySplitEncode S (fun r hr => (h r hr).2)]
  have : ∀ (S' : List Tweet), (∀ r ∈ S', WellFormed r) →
      ((S'.map entryChars ++ [[]]).filter
        (fun e => !(pyStrip e).isEmpty)).filterMap parseEntry = S' := by
    intro S'
    induction S' with
    | nil => intro _; rfl
    | cons r S' ih =>
      intro h'
      have hr := h' r (by simp)
      have hS : ∀ x ∈ S', WellFormed x := fun x hx => h' x (by simp [hx])
      simp only [List.map_cons, List.cons_append, List.filter_cons]
      have hkeep : (!(pyStrip (entryChars r)).isEmpty) = true := by
        simp [List.isEmpty_iff, entryStripNeNil r]
      rw [hkeep]
      simp only [if_true, List.filterMap_cons, parseEntryWF hr]
      rw [ih hS]
  exact this S h

/-! ### Characterizing the dedup loops -/

/-- The merge fold in closed form: the kept new records (first occurrences of
fresh signatures) are prepended in reverse, their signatures accumulate on
the seen list, and the counter advances by the number kept. -/
lemma mergeFoldl : ∀ (inc : List Tweet) (m : List Tweet) (seen : List Str) (c : Nat),
    inc.foldl mergeStep (m, seen, c) =
      ((firstOccNew seen inc).reverse ++ m,
        ((firstOccNew seen inc).map sig).reverse ++ seen,
        c + (firstOccNew seen inc).length) := by
  intro inc
  induction inc with
  | nil => intro m seen c; simp [firstOccNew]
  | cons t rest ih =>
    intro m seen c
    rw [List.foldl_cons, mergeStep, firstOccNew]
    by_cases hs : sig t ∈ seen
    · rw [if_pos hs, if_pos hs, ih]
    · rw [if_neg hs, if_neg hs, ih]
      simp [List.append_assoc, Nat.add_comm, Nat.add_assoc, Nat.add_left_comm]

/-- The signatures of the records kept by `firstOccNew` are distinct and
avoid the initial seen list. -/
lemma firstOccNewSigs : ∀ (l : List Tweet) (seen : List Str),
    ((firstOccNew seen l).map sig).Nodup ∧
      ∀ s ∈ (firstOccNew seen l).map sig, s ∉ seen := by
  intro l
  induction l with
  | nil => intro seen; simp [firstOccNew]
  | cons t rest ih =>
    intro seen
    rw [firstOccNew]
    by_cases hs : sig t ∈ seen
    · rw [if_pos hs]; exact ih seen
    · rw [if_neg hs]
      obtain ⟨hnd, havoid⟩ := ih (sig t :: seen)
      refine ⟨?_, ?_⟩
      · simp only [List.map_cons, List.nodup_cons]
        exact ⟨fun hmem => (havoid _ hmem) (by simp), hnd⟩
      · intro s hsmem
        simp only [List.map_cons, List.mem_cons] at hsmem
        rcases hsmem with rfl | hsmem
        · exact hs
        · intro hcontra
          exact (havoid s hsmem) (by simp [hcontra])

/-- Every record kept by `firstOccNew` comes from the input. -/
lemma firstOccNewSubset : ∀ (l : List Tweet) (seen : List Str),
    ∀ t ∈ firstOccNew seen l, t ∈ l := by
  intro l
  induction l with
  | nil => intro seen t ht; simp [firstOccNew] at ht
  | cons a rest ih =>
    intro seen t ht
    rw [firstOccNew] at ht
    by_cases hs : sig a ∈ seen
    · rw [if_pos hs] at ht
      exact List.mem_cons_of_mem a (ih seen t ht)
    · rw [if_neg hs] at ht
      rcases List.mem_cons.mp ht with rfl | ht'
      · exact List.mem_cons_self t rest
      · exact List.mem_cons_of_mem a (ih (sig a :: seen) t ht')

/-- When the incoming signatures are pairwise distinct, the kept records are
exactly the incoming records whose signature is not already seen. -/
lemma firstOccNewOfNodup : ∀ (l : List Tweet) (seen : List Str),
    (l.map sig).Nodup →
    firstOccNew seen l = l.filter (fun t => decide (sig t ∉ seen)) := by
  intro l
  induction l with
  | nil => intro seen _; rfl
  | cons t rest ih =>
    intro seen hnd
    simp only [List.map_cons, List.nodup_cons] at hnd
    obtain ⟨hfresh, hnd'⟩ := hnd
    rw [firstOccNew, List.filter_cons]
    by_cases hs : sig t ∈ seen
    · rw [if_pos hs]
      have hdec : decide (sig t ∉ seen) = false := by simp [hs]
      rw [hdec]
      simp only [Bool.false_eq_true, if_false]
      exact ih seen hnd'
    · rw [if_neg hs]
      have hdec : decide (sig t ∉ seen) = true := by simp [hs]
      rw [hdec]
      simp only [if_true]
      rw [ih (sig t :: seen) hnd']
      refine congrArg (t :: ·) (List.filter_congr ?_)
      intro x hx
      have hne : sig x ≠ sig t := by
        intro hxe
        exact hfresh (hxe ▸ List.mem_map_of_mem sig hx)
      simp [List.mem_cons, hne, hs]

/-- The scraper fold in closed form: kept articles (first occurrences of
fresh RAW signatures) are appended in encounter order, each stored with its
`user_info` normalized. -/
lemma scrapeFoldl : ∀ (articles acc : List Tweet) (seen : List Str),
    articles.foldl scrapeStep (acc, seen) =
      (acc ++ (firstOccNew seen articles).map storeTweet,
        ((firstOccNew seen articles).map sig).reverse ++ seen) := by
  intro articles
  induction articles with
  | nil => intro acc seen; simp [firstOccNew]
  | cons a rest ih =>
    intro acc seen
    rw [List.foldl_cons, scrapeStep, firstOccNew]
    by_cases hs : sig a ∈ seen
    · rw [if_pos hs, if_pos hs, ih]
    · rw [if_neg hs, if_neg hs, ih]
      simp [List.append_assoc]

/-- A newline-free `user_info` is unchanged by normalization. -/
lemma normalizeUId {u : Str} (h : '\n' ∉ u) : normalizeU u = u := by
  rw [normalizeU]
  rw [show u.map (fun c => if c = '\n' then ' ' else c) = u.map id from
    List.map_congr_left (fun c hc => by
      have hne : c ≠ '\n' := fun he => h (he ▸ hc)
      simp [hne])]
  exact List.map_id u

/-- Storing an article with newline-free `user_info` leaves it unchanged. -/
lemma storeTweetId {a : Tweet} (h : '\n' ∉ a.user_info) : storeTweet a = a := by
  rw [storeTweet, normalizeUId h]

/-- Normalization never leaves a newline behind. -/
lemma nlNotMemNormalize (u : Str) : '\n' ∉ normalizeU u := by
  intro hmem
  rw [normalizeU, List.mem_map] at hmem
  obtain ⟨c, _, heq⟩ := hmem
  by_cases hc : c = '\n'
  · rw [if_pos hc] at heq; exact absurd heq (by decide)
  · rw [if_neg hc] at heq; exact hc heq

/-! ## The claims -/

/-- Claim C1, counterexample: with incoming `[A, A]` (a duplicate inside
incoming, both of whose occurrences have a signature absent from the empty
baseline), the merge does NOT return all baseline-absent incoming records in
reverse encounter order — the claim as stated would require `[A, A]`, but the
code produces `[A]`. -/
theorem claim1_counterexample :
    (mergeTweets [] [exA, exA]).1 ≠ specMergeResult [] [exA, exA] := by decide

/-- Claim C1 (amended): when the incoming records have pairwise distinct
signatures (as the session scraper's output does), the merge returns the
baseline in its original relative order, preceded by the incoming records
whose signature is absent from the baseline, in reverse encounter order. -/
theorem claim1_merge_order (baseline incoming : List Tweet)
    (h : (incoming.map sig).Nodup) :
    (mergeTweets baseline incoming).1 = specMergeResult baseline incoming := by
  show (incoming.foldl mergeStep (baseline, baseline.map sig, 0)).1 = _
  rw [mergeFoldl, specMergeResult,
    firstOccNewOfNodup incoming (baseline.map sig) h]

/-- Witness for C1 at the spec's own example: `merge([X, Y], [A, B])` with
`A`, `B` new yields `[B, A, X, Y]`. -/
theorem claim1_merge_order_witness :
    (([exA, exB]).map sig).Nodup ∧
      (mergeTweets [exX, exY] [exA, exB]).1 = [exB, exA, exX, exY] :=
  ⟨by decide,
    (claim1_merge_order [exX, exY] [exA, exB] (by decide)).trans (by decide)⟩

/-- Claim C2, counterexample: a record that is well-formed in every respect
the claim names — strip-invariant single-line `user_info`/`timestamp`,
strip-invariant `text`, no embedded labels, and no field value containing
the separator as a STANDALONE line — still fails the round trip, because
Python's `split` cuts at the separator characters even mid-line. -/
theorem claim2_counterexample :
    (∀ r ∈ [exSepText], basicWF r ∧ standaloneSepFree r.user_info ∧
        standaloneSepFree r.timestamp ∧ standaloneSepFree r.text) ∧
      decodeL (encodeL [exSepText]) ≠ [exSepText] := by decide

/-- Claim C2 (amended): decoding the encoding is the identity on sequences of
well-formed records, where well-formed additionally requires that the
separator string does not occur as a SUBSTRING of the encoded entry (not
merely not as a standalone line). -/
theorem claim2_roundtrip (S : List Tweet) (h : ∀ r ∈ S, WellFormed r) :
    decodeL (encodeL S) = S :=
  decodeEncodeOfWF S h

/-- Witness for C2 on a concrete two-record sequence. -/
theorem claim2_roundtrip_witness :
    (∀ r ∈ [exA, exB], WellFormed r) ∧ decodeL (encodeL [exA, exB]) = [exA, exB] :=
  ⟨by decide, claim2_roundtrip [exA, exB] (by decide)⟩

/-- Claim C3: merging any baseline with an empty incoming sequence returns
the baseline unchanged and reports zero insertions. -/
theorem claim3_empty_incoming (L : List Tweet) : mergeTweets L [] = (L, 0) := rfl

/-- Claim C4: for EVERY baseline and incoming sequence, the records the
merge inserts are exactly `firstOccNew` of incoming — the first occurrence
of each signature not already seen, every later occurrence of the same
signature being skipped — so duplicates within incoming are collapsed, the
inserted signatures are pairwise distinct, and the insertion count is the
number of kept first occurrences; in particular `merge([], [A, A])` yields
the single-element sequence `[A]` with exactly one insertion. -/
theorem claim4_dup_incoming (baseline incoming : List Tweet) (A : Tweet) :
    ((mergeTweets baseline incoming).1 =
        (firstOccNew (baseline.map sig) incoming).reverse ++ baseline ∧
      (mergeTweets baseline incoming).2 =
        (firstOccNew (baseline.map sig) incoming).length ∧
      ((firstOccNew (baseline.map sig) incoming).map sig).Nodup) ∧
    (mergeTweets [] [A, A]).1 = [A] ∧ (mergeTweets [] [A, A]).2 = 1 := by
  have hF : firstOccNew [] [A, A] = [A] := by
    rw [firstOccNew, if_neg (by simp), firstOccNew, if_pos (by simp), firstOccNew]
  refine ⟨⟨?_, ?_, (firstOccNewSigs incoming (baseline.map sig)).1⟩, ?_, ?_⟩
  · show (incoming.foldl mergeStep (baseline, baseline.map sig, 0)).1 = _
    rw [mergeFoldl]
  · show (incoming.foldl mergeStep (baseline, baseline.map sig, 0)).2.2 = _
    rw [mergeFoldl]
    simp
  · show ([A, A].foldl mergeStep ([], ([] : List Tweet).map sig, 0)).1 = [A]
    rw [mergeFoldl]
    simp [hF]
  · show ([A, A].foldl mergeStep ([], ([] : List Tweet).map sig, 0)).2.2 = 1
    rw [mergeFoldl]
    simp [hF]

/-- Claim C5, counterexample: for an article whose raw `user_info` contains a
newline, the signature used for in-session dedup (computed from the RAW
fields, before normalization) differs from the signature derived from the
stored record's fields. -/
theorem claim5_counterexample :
    scrapeSession [exRawNl] = [storeTweet exRawNl] ∧
      sig exRawNl ≠ sig (storeTweet exRawNl) := by decide

/-- Claim C5 (amended): normalization is applied exactly once, at record
creation (re-storing a stored record changes nothing), but the in-session
dedup key is computed from the raw fields; it equals the stored record's
signature exactly when the raw `user_info` contains no newline. -/
theorem claim5_sig_stable (a : Tweet) :
    storeTweet (storeTweet a) = storeTweet a ∧
      ('\n' ∉ a.user_info → sig a = sig (storeTweet a)) := by
  constructor
  · exact storeTweetId (by simp [storeTweet, nlNotMemNormalize])
  · intro h
    rw [storeTweetId h]

/-- Witness for C5 at a newline-free article. -/
theorem claim5_sig_stable_witness :
    ('\n' ∉ exA.user_info) ∧ sig exA = sig (storeTweet exA) :=
  ⟨by decide, (claim5_sig_stable exA).2 (by decide)⟩

/-- Claim C6, counterexample: a scrape session processing two raw articles
whose `user_info` differ only as newline vs. space stores two records with
EQUAL signatures (raw signatures differ, so both are kept; stored fields
coincide after normalization). -/
theorem claim6_counterexample :
    ¬ ((scrapeSession [exRawNl, exRawSp]).map sig).Nodup := by decide

/-- Claim C6 (amended): signatures are pairwise distinct in a session's
output provided no raw `user_info` contains a newline, and in the merged log
provided the baseline's signatures are pairwise distinct. -/
theorem claim6_nodup_sigs (articles baseline incoming : List Tweet)
    (hA : ∀ a ∈ articles, '\n' ∉ a.user_info)
    (hB : (baseline.map sig).Nodup) :
    ((scrapeSession articles).map sig).Nodup ∧
      (((mergeTweets baseline incoming).1).map sig).Nodup := by
  constructor
  · show (((articles.foldl scrapeStep ([], [])).1).map sig).Nodup
    rw [scrapeFoldl]
    simp only [List.nil_append, List.map_map]
    have heq : (firstOccNew [] articles).map (sig ∘ storeTweet) =
        (firstOccNew [] articles).map sig :=
      List.map_congr_left (fun a ha => by
        rw [Function.comp_apply,
          storeTweetId (hA a (firstOccNewSubset articles [] a ha))])
    rw [heq]
    exact (firstOccNewSigs articles []).1
  · show (((incoming.foldl mergeStep (baseline, baseline.map sig, 0)).1).map sig).Nodup
    rw [mergeFoldl]
    simp only [List.map_append, List.map_reverse]
    rw [List.nodup_append]
    obtain ⟨hnd, havoid⟩ := firstOccNewSigs incoming (baseline.map sig)
    refine ⟨by simpa using hnd, hB, ?_⟩
    intro s hs1
    exact havoid s (by simpa using hs1)

/-- Witness for C6 at concrete inputs. -/
theorem claim6_nodup_sigs_witness :
    (∀ a ∈ [exA], '\n' ∉ a.user_info) ∧ (([exX].map sig).Nodup) ∧
      ((scrapeSession [exA]).map sig).Nodup ∧
      (((mergeTweets [exX] [exB]).1).map sig).Nodup :=
  ⟨by decide, by decide,
    (claim6_nodup_sigs [exA] [exX] [exB] (by decide) (by decide)).1,
    (claim6_nodup_sigs [exA] [exX] [exB] (by decide) (by decide)).2⟩

/-- Claim C7: a chunk missing any of the three labelled fields parses to
nothing (silently dropped), and concretely a three-entry log whose second
entry lacks its `Time:` line decodes to exactly entries 1 and 3. -/
theorem claim7_missing_field_dropped :
    (∀ e : Str,
        findSub (chars "User: ") e = none ∨ findSub (chars "Time: ") e = none ∨
          findSub (chars "Text: ") e = none →
        parseEntry e = none) ∧
      decodeL logC7 =
        [⟨chars "a", chars "t1", chars "x1"⟩, ⟨chars "c", chars "t3", chars "x3"⟩] := by
  constructor
  · intro e he
    cases hU : findSub (chars "User: ") e with
    | none => rw [parseEntry, hU]
    | some du =>
      cases hT : findSub (chars "Time: ") e with
      | none => rw [parseEntry, hU, hT]
      | some dt =>
        cases hX : findSub (chars "Text: ") e with
        | none => rw [parseEntry, hU, hT, hX]
        | some dx =>
          exfalso
          rcases he with h | h | h
          · rw [h] at hU; exact Option.noConfusion hU
          · rw [h] at hT; exact Option.noConfusion hT
          · rw [h] at hX; exact Option.noConfusion hX
  · decide

/-- Witness for C7: the Time-less entry of the concrete log indeed parses to
nothing. -/
theorem claim7_missing_field_dropped_witness :
    (findSub (chars "Time: ") (chars "User: b\nText: x2\n") = none) ∧
      parseEntry (chars "User: b\nText: x2\n") = none :=
  ⟨by decide,
    claim7_missing_field_dropped.1 _ (Or.inr (Or.inl (by decide)))⟩

/-- Claim C8: every failing baseline fetch — missing URL, network
error/exception, or non-success HTTP status — makes the loader return the
empty sequence (a fresh start) instead of failing. -/
theorem claim8_fetch_failure (u b : Str) (st : Nat) (o : FetchOutcome) :
    load_existing_tweets [] o = [] ∧
      load_existing_tweets u FetchOutcome.networkError = [] ∧
      (st ≠ 200 → load_existing_tweets u (FetchOutcome.response st b) = []) := by
  refine ⟨by simp [load_existing_tweets], ?_, ?_⟩
  · by_cases hu : u = [] <;> simp [load_existing_tweets, hu]
  · intro hst
    by_cases hu : u = [] <;> simp [load_existing_tweets, hu, hst]

/-- Witness for C8 at a concrete 404 response. -/
theorem claim8_fetch_failure_witness :
    ((404 : Nat) ≠ 200) ∧
      load_existing_tweets (chars "u") (FetchOutcome.response 404 (chars "x")) = [] :=
  ⟨by decide,
    (claim8_fetch_failure (chars "u") (chars "x") 404 FetchOutcome.networkError).2.2
      (by decide)⟩

/-- Claim C9: for a non-empty merged sequence, the encoder emits, for each
record in order, exactly its three labelled lines followed by the separator
line (`recordBlock`), and the whole output ends with the separator — i.e.
the separator also follows the last record. -/
theorem claim9_encoder_format (S : List Tweet) (h : S ≠ []) :
    encodeL S = (S.map recordBlock).flatten ∧ SEP <:+ encodeL S := by
  refine ⟨encodeEqFlatten S, ?_⟩
  rw [encodeEqFlatten]
  rcases List.eq_nil_or_concat S with rfl | ⟨S0, t, rfl⟩
  · exact absurd rfl h
  · rw [List.concat_eq_append, List.map_append, List.flatten_append]
    simp only [List.map_cons, List.map_nil, List.flatten_cons, List.flatten_nil,
      List.append_nil]
    rw [recordBlock]
    exact ⟨(S0.map recordBlock).flatten ++ entryChars t, by simp [List.append_assoc]⟩

/-- Witness for C9 on a one-record sequence. -/
theorem claim9_encoder_format_witness :
    ([exA] ≠ ([] : List Tweet)) ∧
      (encodeL [exA] = ([exA].map recordBlock).flatten ∧ SEP <:+ encodeL [exA]) :=
  ⟨by decide, claim9_encoder_format [exA] (by decide)⟩

/-- Claim C10: when the merged result is empty the publisher performs no
write: the persisted log file (present or absent) is left exactly as it
was. -/
theorem claim10_empty_merge_no_write (oldFile : Option Str) :
    publishLog [] oldFile = oldFile := by
  rw [publishLog, if_pos rfl]

end Twimg
